import Mathlib

/-!
Verification of the nayru TTS pipeline core.

Texts are modelled as lists of bytes (`List Nat`); all inputs of interest are
ASCII, where Rust's byte-indexed string operations coincide with this model.
Loops of the source are modelled with an explicit fuel argument that is always
sufficient on terminating inputs (fuel starts above the input length and every
iteration consumes at least one byte).
-/

set_option maxRecDepth 100000

namespace Nayru

/-- Byte view of a Lean string literal (ASCII texts only). -/
def strBytes (s : String) : List Nat := s.data.map Char.toNat

/-- Rust `char::is_whitespace` restricted to ASCII bytes
(used by `str::trim`, `trim_start`, `trim_end` and by the regex class `\s`). -/
def charWs (b : Nat) : Bool :=
  b = 9 || b = 10 || b = 11 || b = 12 || b = 13 || b = 32

/-- Rust `u8::is_ascii_whitespace`: space, tab, newline, form feed, carriage return. -/
def asciiWs (b : Nat) : Bool :=
  b = 9 || b = 10 || b = 12 || b = 13 || b = 32

/-- Rust `str::trim_start` (drop leading whitespace). -/
def trimStart (s : List Nat) : List Nat := s.dropWhile charWs

/-- Rust `str::trim_end` (drop trailing whitespace). -/
def trimEnd : List Nat → List Nat
  | [] => []
  | a :: rest =>
    match trimEnd rest with
    | [] => if charWs a then [] else [a]
    | r => a :: r

/-- Rust `str::trim`. -/
def trim (s : List Nat) : List Nat := trimEnd (trimStart s)

/-- Rust `str::rfind(". ")`: index of the last occurrence of the two-byte
pattern `. ` (period then space). -/
def rfindDotSpace : List Nat → Option Nat
  | [] => none
  | a :: rest =>
    match rfindDotSpace rest with
    | some j => some (j + 1)
    | none =>
      if a = 46 && rest.headD 0 = 32 && !rest.isEmpty then some 0 else none

/-- Rust `str::rfind(' ')`: index of the last space byte. -/
def rfindSpace : List Nat → Option Nat
  | [] => none
  | a :: rest =>
    match rfindSpace rest with
    | some j => some (j + 1)
    | none => if a = 32 then some 0 else none

/-- `word_boundary_or_hard` from `text_prep.rs`: the last space at
position ≥ `max_len/3`, else a hard split at `max_len`. -/
def wordBoundaryOrHard (window : List Nat) (maxLen : Nat) : Nat :=
  match rfindSpace window with
  | some pos => if maxLen / 3 ≤ pos then pos else maxLen
  | none => maxLen

/-- The `let split_at = ...` computation of `split_text`: prefer the last
`. ` at position ≥ `max_len/2` (keeping the period), else fall back to
`word_boundary_or_hard`. -/
def splitTextCut (window : List Nat) (maxLen : Nat) : Nat :=
  match rfindDotSpace window with
  | some pos =>
    if maxLen / 2 ≤ pos then pos + 1 else wordBoundaryOrHard window maxLen
  | none => wordBoundaryOrHard window maxLen

/-- The `while remaining.len() > max_len` loop of `split_text`, with fuel.
Fuel never runs out when it starts above the length of `remaining` and
`maxLen ≥ 1` (each iteration shortens `remaining`). -/
def splitTextLoop : Nat → List Nat → Nat → List (List Nat) → List (List Nat)
  | 0, _, _, acc => acc
  | fuel + 1, remaining, maxLen, acc =>
    if remaining.length ≤ maxLen then
      acc ++ (if 2 ≤ remaining.length then [remaining] else [])
    else
      splitTextLoop fuel
        (trimStart (remaining.drop (splitTextCut (remaining.take maxLen) maxLen)))
        maxLen
        (acc ++
          (if (trimEnd (remaining.take (splitTextCut (remaining.take maxLen) maxLen))).isEmpty
           then []
           else [trimEnd (remaining.take (splitTextCut (remaining.take maxLen) maxLen))]))

/-- `split_text` from `text_prep.rs`: split text into chunks of roughly
`maxLen` bytes, preferring `. ` boundaries, then word boundaries, then a
hard split; chunks shorter than 2 bytes are discarded, and text that
already fits is returned unchanged. -/
def splitText (text : List Nat) (maxLen : Nat) : List (List Nat) :=
  if text.length ≤ maxLen then [text]
  else splitTextLoop (text.length + 1) text maxLen []

/-- The split condition of `split_sentences` (`text_prep.rs` lines 148-154),
transcribed literally: sentence punctuation followed by an ASCII whitespace
byte other than `\n`, or (redundantly) sentence punctuation followed by a
space. `b` is the current byte, `b1` the byte after it (a next byte exists). -/
def sentSplitCond (b b1 : Nat) : Bool :=
  ((b = 46 || b = 33 || b = 63) && (asciiWs b1 && !(b1 = 10))) ||
  ((b = 46 || b = 33 || b = 63) && b1 = 32)

/-- The scanning loop of `split_sentences`: `pending` is `text[start..i]`,
`remaining` is `text[i..]`, `acc` the sentences pushed so far.
Fuel never runs out when it starts above the length of `remaining`. -/
def splitSentencesLoop : Nat → List Nat → List Nat → List (List Nat) → List (List Nat)
  | 0, pending, _, acc => acc ++ (if (trim pending).isEmpty then [] else [trim pending])
  | fuel + 1, pending, remaining, acc =>
    match remaining with
    | [] => acc ++ (if (trim pending).isEmpty then [] else [trim pending])
    | b :: rest =>
      if b = 10 && rest.headD 0 = 10 && !rest.isEmpty then
        let acc := acc ++ (if (trim pending).isEmpty then [] else [trim pending])
        splitSentencesLoop fuel [] ((b :: rest).dropWhile (· = 10)) acc
      else if !rest.isEmpty && sentSplitCond b (rest.headD 0) then
        let chunk := trim (pending ++ [b])
        let acc := acc ++ (if chunk.isEmpty then [] else [chunk])
        splitSentencesLoop fuel [] (rest.dropWhile (fun x => asciiWs x && !(x = 10))) acc
      else
        splitSentencesLoop fuel (pending ++ [b]) rest acc

/-- `split_sentences` from `text_prep.rs`: split at sentence-ending
punctuation followed by whitespace and at paragraph breaks (`\n\n`). -/
def splitSentences (text : List Nat) : List (List Nat) :=
  splitSentencesLoop (text.length + 1) [] text []

/-- Modelled from the amended wording of the claim: the split condition is
sentence punctuation (`.`, `!`, `?`) immediately followed by an ASCII
whitespace byte other than newline. -/
def sentSplitCondSpec (b b1 : Nat) : Bool :=
  (b = 46 || b = 33 || b = 63) && asciiWs b1 && !(b1 = 10)

/-- The amended split description as a scanner: identical traversal to
`splitSentencesLoop` but with the simplified split condition
`sentSplitCondSpec`; splits at the described punctuation boundaries and at
paragraph breaks of two or more newlines, yields trimmed non-empty
fragments, and retains the terminal fragment. -/
def splitSentencesSpecLoop : Nat → List Nat → List Nat → List (List Nat) → List (List Nat)
  | 0, pending, _, acc => acc ++ (if (trim pending).isEmpty then [] else [trim pending])
  | fuel + 1, pending, remaining, acc =>
    match remaining with
    | [] => acc ++ (if (trim pending).isEmpty then [] else [trim pending])
    | b :: rest =>
      if b = 10 && rest.headD 0 = 10 && !rest.isEmpty then
        let acc := acc ++ (if (trim pending).isEmpty then [] else [trim pending])
        splitSentencesSpecLoop fuel [] ((b :: rest).dropWhile (· = 10)) acc
      else if !rest.isEmpty && sentSplitCondSpec b (rest.headD 0) then
        let chunk := trim (pending ++ [b])
        let acc := acc ++ (if chunk.isEmpty then [] else [chunk])
        splitSentencesSpecLoop fuel [] (rest.dropWhile (fun x => asciiWs x && !(x = 10))) acc
      else
        splitSentencesSpecLoop fuel (pending ++ [b]) rest acc

/-- The amended sentence-splitting description, as a function. -/
def splitSentencesSpec (text : List Nat) : List (List Nat) :=
  splitSentencesSpecLoop (text.length + 1) [] text []

/-- The nested while loops of `simulate_merge` (`tracker.rs`) in a single
left-to-right pass: `mergedLen` is the length of the batch currently being
grown and `count` the number of batches started so far. The inner loop of
the source absorbs the next chunk while `merged_len + 1 + next_len` fits
in `maxLen`; otherwise the outer loop starts a new batch. -/
def simMergeGo (maxLen : Nat) : List (List Nat) → Nat → Nat → Nat
  | [], _, count => count
  | c :: rest, mergedLen, count =>
    if mergedLen + 1 + c.length ≤ maxLen then
      simMergeGo maxLen rest (mergedLen + 1 + c.length) count
    else
      simMergeGo maxLen rest c.length (count + 1)

/-- `simulate_merge` from `tracker.rs`: the number of batches obtained by
greedily merging adjacent chunks while they fit in `maxLen` with a joining
space. -/
def simulateMerge (chunks : List (List Nat)) (maxLen : Nat) : Nat :=
  match chunks with
  | [] => 0
  | c :: rest => simMergeGo maxLen rest c.length 1

/-- The per-sentence batched-chunk counts computed by `SentenceTracker::new`:
for each sentence, `split_text` followed by `simulate_merge`. -/
def trackerSentenceCounts (sentences : List (List Nat)) (maxLen : Nat) : List Nat :=
  sentences.map (fun s => simulateMerge (splitText s maxLen) maxLen)

/-- Cumulative sums (`chunk_offsets[i] = total chunks for sentences[0..=i]`). -/
def cumSums : List Nat → Nat → List Nat
  | [], _ => []
  | n :: rest, total => (total + n) :: cumSums rest (total + n)

/-- `chunk_offsets` of `SentenceTracker::new(full_text, start_index)` with
chunk length `maxLen` (the tracker uses `DEFAULT_MAX_CHUNK_LEN = 200`). -/
def trackerChunkOffsets (fullText : List Nat) (startIndex maxLen : Nat) : List Nat :=
  cumSums (trackerSentenceCounts ((splitSentences fullText).drop startIndex) maxLen) 0

/-- The FetchJob texts dispatched by the text-processor's `Cmd::Speak` branch
(`tts.rs` lines 218-258): each sentence is dispatched individually, and a
sentence longer than `max_chunk_len` is sub-split by `split_text`. -/
def speakJobs (text : List Nat) (maxLen : Nat) : List (List Nat) :=
  ((splitSentences text).map
    (fun s => if s.length ≤ maxLen then [s] else splitText s maxLen)).flatten

/-- Rust `str::rfind(c)` generalised to any byte. -/
def rfindByte (c : Nat) : List Nat → Option Nat
  | [] => none
  | a :: rest =>
    match rfindByte c rest with
    | some j => some (j + 1)
    | none => if a = c then some 0 else none

/-- One table line of `RE_TABLE` (`\|[^\n]+\|`): if `s` starts with `|` and
its current line contains a later `|` with at least one byte in between,
consume up to that line's last `|` and return the rest. -/
def matchTableLine (s : List Nat) : Option (List Nat) :=
  match s with
  | [] => none
  | a :: t =>
    if a = 124 then
      match rfindByte 124 (t.takeWhile (fun x => !(x = 10))) with
      | some q => if 1 ≤ q then some (t.drop (q + 1)) else none
      | none => none
    else none

/-- The `(?:\n\|[^\n]+\|)*` continuation of `RE_TABLE`: greedily consume
further newline-prefixed table lines. -/
def tableCont : Nat → List Nat → List Nat
  | 0, s => s
  | fuel + 1, s =>
    match s with
    | 10 :: t =>
      match matchTableLine t with
      | some r => tableCont fuel r
      | none => s
    | _ => s

/-- A full `RE_TABLE` table match starting at a line start. -/
def tableMatch (s : List Nat) : Option (List Nat) :=
  (matchTableLine s).map (fun r => tableCont (r.length + 1) r)

/-- Replacement text of `RE_TABLE`. -/
def tableRepl : List Nat := strBytes ("\nSee the table in our conversation.\n")

/-- Scan of `RE_TABLE.replace_all`: a table is matched at a line start
(`(?m)^`), or one preceding `\n` is consumed by the match (`(?:^|\n)`). -/
def tableStepF : Nat → Bool → List Nat → List Nat
  | 0, _, _ => []
  | fuel + 1, atStart, s =>
    match s with
    | [] => []
    | b :: rest =>
      match (if atStart then tableMatch (b :: rest) else none) with
      | some r => tableRepl ++ tableStepF fuel false r
      | none =>
        if b = 10 then
          match tableMatch rest with
          | some r => tableRepl ++ tableStepF fuel false r
          | none => b :: tableStepF fuel true rest
        else b :: tableStepF fuel false rest

/-- `RE_TABLE.replace_all(text, "\nSee the table in our conversation.\n")`. -/
def tableStep (s : List Nat) : List Nat := tableStepF (s.length + 1) true s

/-- Find the closing ` ``` ` of `RE_FENCED_CODE` (the lazy `.*?`): rest after
the first later triple backtick. -/
def dropToTriple : List Nat → Option (List Nat)
  | 96 :: 96 :: 96 :: t => some t
  | _ :: t => dropToTriple t
  | [] => none

/-- Replacement text of `RE_FENCED_CODE`. -/
def fenceRepl : List Nat := strBytes (" See the code in our conversation. ")

/-- Scan of `RE_FENCED_CODE.replace_all` (`(?s)` triple backtick, lazy body,
triple backtick). -/
def fencedStepF : Nat → List Nat → List Nat
  | 0, _ => []
  | fuel + 1, s =>
    match s with
    | [] => []
    | 96 :: 96 :: 96 :: t =>
      match dropToTriple t with
      | some r => fenceRepl ++ fencedStepF fuel r
      | none => 96 :: fencedStepF fuel (96 :: 96 :: t)
    | b :: rest => b :: fencedStepF fuel rest

/-- `RE_FENCED_CODE.replace_all(text, " See the code in our conversation. ")`. -/
def fencedStep (s : List Nat) : List Nat := fencedStepF (s.length + 1) s

/-- Scan of `RE_INLINE_CODE.replace_all` (backtick, one or more non-backticks,
backtick, removed). -/
def inlineCodeStepF : Nat → List Nat → List Nat
  | 0, _ => []
  | fuel + 1, s =>
    match s with
    | [] => []
    | b :: rest =>
      if b = 96 then
        let inner := rest.takeWhile (fun x => !(x = 96))
        match rest.dropWhile (fun x => !(x = 96)) with
        | 96 :: t =>
          if inner.isEmpty then b :: inlineCodeStepF fuel rest
          else inlineCodeStepF fuel t
        | _ => b :: inlineCodeStepF fuel rest
      else b :: inlineCodeStepF fuel rest

/-- `RE_INLINE_CODE.replace_all(text, "")`. -/
def inlineCodeStep (s : List Nat) : List Nat := inlineCodeStepF (s.length + 1) s

/-- An `RE_HR` match at a line start: `[\s]*`, three or more of `-` `*` `_`,
trailing in-line whitespace, then end of line. -/
def hrMatch (s : List Nat) : Option (List Nat) :=
  let t := s.dropWhile charWs
  let dashes := t.takeWhile (fun x => x = 45 || x = 42 || x = 95)
  let t2 := t.dropWhile (fun x => x = 45 || x = 42 || x = 95)
  if 3 ≤ dashes.length then
    let t3 := t2.dropWhile (fun x => charWs x && !(x = 10))
    match t3 with
    | [] => some []
    | c :: r => if c = 10 then some (c :: r) else none
  else none

/-- Scan of `RE_HR.replace_all` (`(?m)` line of 3+ rule characters, removed). -/
def hrStepF : Nat → Bool → List Nat → List Nat
  | 0, _, _ => []
  | fuel + 1, atStart, s =>
    match s with
    | [] => []
    | b :: rest =>
      match (if atStart then hrMatch (b :: rest) else none) with
      | some r => hrStepF fuel false r
      | none => b :: hrStepF fuel (b = 10) rest

/-- `RE_HR.replace_all(text, "")`. -/
def hrStep (s : List Nat) : List Nat := hrStepF (s.length + 1) true s

/-- Scan of `RE_BOLD.replace_all` (`\*\*([^*]+)\*\*` to the inner text). -/
def boldStepF : Nat → List Nat → List Nat
  | 0, _ => []
  | fuel + 1, s =>
    match s with
    | [] => []
    | 42 :: 42 :: t =>
      let inner := t.takeWhile (fun x => !(x = 42))
      match t.dropWhile (fun x => !(x = 42)) with
      | 42 :: 42 :: r =>
        if inner.isEmpty then 42 :: boldStepF fuel (42 :: t)
        else inner ++ boldStepF fuel r
      | _ => 42 :: boldStepF fuel (42 :: t)
    | b :: rest => b :: boldStepF fuel rest

/-- `RE_BOLD.replace_all(text, "$1")`. -/
def boldStep (s : List Nat) : List Nat := boldStepF (s.length + 1) s

/-- Scan of `RE_ITALIC.replace_all` (`\*([^*]+)\*` to the inner text). -/
def italicStepF : Nat → List Nat → List Nat
  | 0, _ => []
  | fuel + 1, s =>
    match s with
    | [] => []
    | b :: rest =>
      if b = 42 then
        let inner := rest.takeWhile (fun x => !(x = 42))
        match rest.dropWhile (fun x => !(x = 42)) with
        | 42 :: r =>
          if inner.isEmpty then b :: italicStepF fuel rest
          else inner ++ italicStepF fuel r
        | _ => b :: italicStepF fuel rest
      else b :: italicStepF fuel rest

/-- `RE_ITALIC.replace_all(text, "$1")`. -/
def italicStep (s : List Nat) : List Nat := italicStepF (s.length + 1) s

/-- Drop up to `n` further `#` bytes (the `{1,6}` bound of `RE_HEADING`). -/
def dropHashes : Nat → List Nat → List Nat
  | 0, l => l
  | _ + 1, [] => []
  | n + 1, b :: t => if b = 35 then dropHashes n t else b :: t

/-- Scan of `RE_HEADING.replace_all` (`#{1,6}\s*`, removed; the pattern is
unanchored, so every `#` byte starts a match). -/
def headingStepF : Nat → List Nat → List Nat
  | 0, _ => []
  | fuel + 1, s =>
    match s with
    | [] => []
    | b :: rest =>
      if b = 35 then headingStepF fuel ((dropHashes 5 rest).dropWhile charWs)
      else b :: headingStepF fuel rest

/-- `RE_HEADING.replace_all(text, "")`. -/
def headingStep (s : List Nat) : List Nat := headingStepF (s.length + 1) s

/-- Scan of `RE_LINK.replace_all` (`\[([^\]]+)\]\([^)]+\)` to the label). -/
def linkStepF : Nat → List Nat → List Nat
  | 0, _ => []
  | fuel + 1, s =>
    match s with
    | [] => []
    | b :: rest =>
      if b = 91 then
        let label := rest.takeWhile (fun x => !(x = 93))
        match rest.dropWhile (fun x => !(x = 93)) with
        | 93 :: 40 :: t =>
          let url := t.takeWhile (fun x => !(x = 41))
          match t.dropWhile (fun x => !(x = 41)) with
          | 41 :: r =>
            if label.isEmpty || url.isEmpty then b :: linkStepF fuel rest
            else label ++ linkStepF fuel r
          | _ => b :: linkStepF fuel rest
        | _ => b :: linkStepF fuel rest
      else b :: linkStepF fuel rest

/-- `RE_LINK.replace_all(text, "$1")`. -/
def linkStep (s : List Nat) : List Nat := linkStepF (s.length + 1) s

/-- An `RE_BULLET` match at a line start (`^[\s]*[-*]\s+`): returns the rest
after the match and whether the consumed text ends with a newline (which
makes the resume point a line start again). -/
def bulletMatch (s : List Nat) : Option (List Nat × Bool) :=
  let t := s.dropWhile charWs
  if (t.headD 0 = 45 || t.headD 0 = 42) && !t.isEmpty &&
      charWs (t.tail.headD 0) && !t.tail.isEmpty then
    some (t.tail.dropWhile charWs, (t.tail.takeWhile charWs).getLast? = some 10)
  else none

/-- Scan of `RE_BULLET.replace_all` (bullet prefix of a line becomes `. `). -/
def bulletStepF : Nat → Bool → List Nat → List Nat
  | 0, _, _ => []
  | fuel + 1, atStart, s =>
    match s with
    | [] => []
    | b :: rest =>
      match (if atStart then bulletMatch (b :: rest) else none) with
      | some (r, nl) => 46 :: 32 :: bulletStepF fuel nl r
      | none => b :: bulletStepF fuel (b = 10) rest

/-- `RE_BULLET.replace_all(text, ". ")`. -/
def bulletStep (s : List Nat) : List Nat := bulletStepF (s.length + 1) true s

/-- A decimal digit byte. -/
def isDigit (b : Nat) : Bool := 48 ≤ b && b ≤ 57

/-- An `RE_NUMBERED` match at a line start (`^[\s]*\d+\.\s+`). -/
def numberedMatch (s : List Nat) : Option (List Nat × Bool) :=
  let t := s.dropWhile charWs
  let ad := t.dropWhile isDigit
  if !(t.takeWhile isDigit).isEmpty && ad.headD 0 = 46 && !ad.isEmpty &&
      charWs (ad.tail.headD 0) && !ad.tail.isEmpty then
    some (ad.tail.dropWhile charWs, (ad.tail.takeWhile charWs).getLast? = some 10)
  else none

/-- Scan of `RE_NUMBERED.replace_all` (numbered prefix of a line becomes `. `). -/
def numberedStepF : Nat → Bool → List Nat → List Nat
  | 0, _, _ => []
  | fuel + 1, atStart, s =>
    match s with
    | [] => []
    | b :: rest =>
      match (if atStart then numberedMatch (b :: rest) else none) with
      | some (r, nl) => 46 :: 32 :: numberedStepF fuel nl r
      | none => b :: numberedStepF fuel (b = 10) rest

/-- `RE_NUMBERED.replace_all(text, ". ")`. -/
def numberedStep (s : List Nat) : List Nat := numberedStepF (s.length + 1) true s

/-- `RE_LEADING_DOT.replace(text, "")`: a single anchored match `^\.\s*`. -/
def leadingDotStep (s : List Nat) : List Nat :=
  if s.headD 0 = 46 && !s.isEmpty then s.tail.dropWhile charWs else s

/-- Scan of `RE_DOUBLE_DOT.replace_all` (`\.\s*\.` becomes `.`). -/
def doubleDotStepF : Nat → List Nat → List Nat
  | 0, _ => []
  | fuel + 1, s =>
    match s with
    | [] => []
    | b :: rest =>
      if b = 46 then
        if (rest.dropWhile charWs).headD 0 = 46 && !(rest.dropWhile charWs).isEmpty then
          46 :: doubleDotStepF fuel (rest.dropWhile charWs).tail
        else 46 :: doubleDotStepF fuel rest
      else b :: doubleDotStepF fuel rest

/-- `RE_DOUBLE_DOT.replace_all(text, ".")`. -/
def doubleDotStep (s : List Nat) : List Nat := doubleDotStepF (s.length + 1) s

/-- Scan of `RE_MULTI_SPACE.replace_all` (`\s{2,}` becomes a single space;
an isolated whitespace byte is left unchanged). -/
def collapseWsF : Nat → List Nat → List Nat
  | 0, _ => []
  | fuel + 1, s =>
    match s with
    | [] => []
    | a :: rest =>
      if charWs a then
        if rest.isEmpty then [a]
        else if charWs (rest.headD 0) then
          32 :: collapseWsF fuel (rest.dropWhile charWs)
        else a :: collapseWsF fuel rest
      else a :: collapseWsF fuel rest

/-- `RE_MULTI_SPACE.replace_all(text, " ")`. -/
def collapseWs (s : List Nat) : List Nat := collapseWsF (s.length + 1) s

/-- `clean_text_for_tts` from `text_prep.rs`: the thirteen regex passes in
source order, followed by the final trim. -/
def cleanTextForTts (text : List Nat) : List Nat :=
  trim (collapseWs (doubleDotStep (leadingDotStep (numberedStep (bulletStep
    (linkStep (headingStep (italicStep (boldStep (hrStep (inlineCodeStep
      (fencedStep (tableStep text)))))))))))))

/-! ## WAV codec (`wav.rs`) -/

/-- Little-endian bytes of a `u16`. -/
def u16le (n : Nat) : List Nat := [n % 256, n / 256 % 256]

/-- Little-endian bytes of a `u32`. -/
def u32le (n : Nat) : List Nat :=
  [n % 256, n / 256 % 256, n / 65536 % 256, n / 16777216 % 256]

/-- `i16::to_le_bytes` (two's complement). -/
def i16le (s : Int) : List Nat := u16le (s % 65536).toNat

/-- `write_wav` from `wav.rs`: minimal 16-bit mono PCM RIFF/WAVE buffer.
`usize`-to-`u32` casts wrap modulo `2^32` as in the source. -/
def writeWav (samples : List Int) (sampleRate : Nat) : List Nat :=
  let dataLen := (2 * samples.length) % 4294967296
  let fileLen := (36 + dataLen) % 4294967296
  [82, 73, 70, 70] ++ u32le fileLen ++ [87, 65, 86, 69] ++
  [102, 109, 116, 32] ++ u32le 16 ++ u16le 1 ++ u16le 1 ++
  u32le sampleRate ++ u32le (sampleRate * 2 % 4294967296) ++ u16le 2 ++ u16le 16 ++
  [100, 97, 116, 97] ++ u32le dataLen ++ (samples.map i16le).flatten

/-- Parsed WAV header fields (`WavHeader` in `wav.rs`). -/
structure WavHeader where
  channels : Nat
  sampleRate : Nat
  bitsPerSample : Nat
  dataOffset : Nat
deriving DecidableEq

/-- Byte of a buffer at an index (all reads in the source are bounds-checked
before use). -/
def byteAt (buf : List Nat) (i : Nat) : Nat := buf.getD i 0

/-- Little-endian `u16` read. -/
def readU16 (buf : List Nat) (i : Nat) : Nat :=
  byteAt buf i + 256 * byteAt buf (i + 1)

/-- Little-endian `u32` read. -/
def readU32 (buf : List Nat) (i : Nat) : Nat :=
  byteAt buf i + 256 * byteAt buf (i + 1) + 65536 * byteAt buf (i + 2) +
    16777216 * byteAt buf (i + 3)

/-- The chunk-scanning loop of `parse_wav_header` (fuel decreases once per
chunk; each chunk advances `pos` by at least 8, so fuel above `buf.length`
is always sufficient). `none` stands for every `Err` of the source. -/
def parseChunks : Nat → List Nat → Nat → Option Nat → Option Nat → Option Nat →
    Option WavHeader
  | 0, _, _, _, _, _ => none
  | fuel + 1, buf, pos, channels, sampleRate, bits =>
    if pos + 8 ≤ buf.length then
      if (buf.drop pos).take 4 = [102, 109, 116, 32] then
        if pos + 24 ≤ buf.length then
          if readU16 buf (pos + 8) = 1 then
            parseChunks fuel buf
              (pos + 8 +
                (if readU32 buf (pos + 4) = 4294967295 then 16 else readU32 buf (pos + 4)))
              (some (readU16 buf (pos + 10)))
              (some (readU32 buf (pos + 12))) (some (readU16 buf (pos + 22)))
          else none
        else none
      else if (buf.drop pos).take 4 = [100, 97, 116, 97] then
        match channels, sampleRate, bits with
        | some ch, some sr, some bp => some ⟨ch, sr, bp, pos + 8⟩
        | _, _, _ => none
      else
        parseChunks fuel buf
          (pos + 8 + (if readU32 buf (pos + 4) = 4294967295 then 0 else readU32 buf (pos + 4)))
          channels sampleRate bits
    else none

/-- `parse_wav_header` from `wav.rs`. -/
def parseWavHeader (buf : List Nat) : Option WavHeader :=
  if 12 ≤ buf.length then
    if buf.take 4 = [82, 73, 70, 70] then
      if (buf.drop 8).take 4 = [87, 65, 86, 69] then
        parseChunks (buf.length + 1) buf 12 none none none
      else none
    else none
  else none

/-! ## Streaming PCM source (`streaming_source.rs`) -/

/-- `PcmChunk` from `streaming_source.rs`. -/
inductive PcmChunk where
  | data (samples : List Int)
  | done
deriving DecidableEq

/-- `StreamingSource` state. The channel is modelled by the list of messages
it currently holds plus whether the sender is still alive. -/
structure SSState where
  queue : List PcmChunk
  senderAlive : Bool
  buffer : List Int
  finished : Bool
deriving DecidableEq

/-- The `while let Ok(chunk) = self.rx.try_recv()` drain loop of
`fill_buffer`: returns (remaining queue, buffer, whether `Done` was seen,
which returns early from `fill_buffer`). -/
def drainAll : List PcmChunk → List Int → List PcmChunk × List Int × Bool
  | [], buf => ([], buf, false)
  | .data s :: rest, buf => drainAll rest (buf ++ s)
  | .done :: rest, buf => (rest, buf, true)

/-- `StreamingSource::fill_buffer`. The 10 ms `recv_timeout` on an empty
channel yields `Timeout` while the sender is alive (no new message arrives
in the modelled scenarios) and `Disconnected` otherwise. -/
def fillBuffer (s : SSState) : SSState :=
  let d := drainAll s.queue s.buffer
  if d.2.2 then { s with queue := d.1, buffer := d.2.1, finished := true }
  else
    let s1 : SSState := { s with queue := d.1, buffer := d.2.1 }
    if s1.buffer.isEmpty && !s1.finished then
      if s1.senderAlive then s1 else { s1 with finished := true }
    else s1

/-- `StreamingSource::next` (the `Iterator` implementation): returns the
yielded item (`none` is end-of-sequence) and the successor state. -/
def ssNext (s : SSState) : Option Int × SSState :=
  match s.buffer with
  | x :: rest => (some x, { s with buffer := rest })
  | [] =>
    if s.finished then (none, s)
    else
      let s1 := fillBuffer s
      match s1.buffer with
      | x :: rest => (some x, { s1 with buffer := rest })
      | [] => if s1.finished then (none, s1) else (some 0, s1)

/-- Iterate `ssNext` at most `n` times, collecting the yielded samples up to
the first end-of-sequence. -/
def collectN : Nat → SSState → List Int
  | 0, _ => []
  | n + 1, s =>
    match ssNext s with
    | (none, _) => []
    | (some x, s1) => x :: collectN n s1

/-! ## Fetcher task (`tts.rs`) -/

/-- `bytes_to_i16` helper: pairs of bytes as little-endian `i16`. -/
def pairsToI16 : List Nat → List Int
  | a :: b :: rest =>
    (if a + 256 * b < 32768 then (a + 256 * b : Int) else (a + 256 * b : Int) - 65536)
      :: pairsToI16 rest
  | _ => []

/-- `bytes_to_i16` from `tts.rs`: prepend the leftover odd byte, convert
pairs, and carry a new odd byte. -/
def bytesToI16 (bytes : List Nat) (leftover : Option Nat) : List Int × Option Nat :=
  let slice := match leftover with
    | some lo => lo :: bytes
    | none => bytes
  (pairsToI16 slice, if slice.length % 2 = 1 then slice.getLast? else none)

/-- One observed body-chunk event of a fetcher: the epoch value the fetcher
reads at the top of the streaming loop, and the chunk itself (`none` models
a stream error `Err(e)`). -/
structure ChunkEvent where
  obs : Nat
  data : Option (List Nat)
deriving DecidableEq

/-- Outcome of the HTTP POST of one job: error responses, or a streaming
response with the epoch observed after headers and the body-chunk events. -/
inductive FetchOutcome where
  | httpError
  | netError
  | success (afterHeaders : Nat) (chunks : List ChunkEvent)
deriving DecidableEq

/-- Result of one iteration of `fetcher_task` on a dequeued job. -/
structure FetchResult where
  /-- Index of the body chunk at which `PlayCmd::PlayStream` was sent, if any. -/
  playAt : Option Nat
  /-- `PcmChunk::Data` batches sent to the per-job channel, in order. -/
  batches : List (List Int)
  /-- Whether `PcmChunk::Done` was sent. -/
  doneSent : Bool
  /-- Whether `queue_length` was decremented for this job. -/
  decremented : Bool
deriving DecidableEq

/-- The `while let Some(chunk_result) = stream.next()` loop of
`fetcher_task`: epoch re-check before each chunk, leftover-byte carry,
source creation and `PlayStream` on the first non-empty batch. Returns the
`PlayStream` position and the data batches sent. -/
def streamLoop (jobEpoch : Nat) :
    List ChunkEvent → Option Nat → Option Nat → Nat → List (List Int) →
      Option Nat × List (List Int)
  | [], _, playAt, _, acc => (playAt, acc)
  | ev :: rest, leftover, playAt, idx, acc =>
    if ev.obs ≠ jobEpoch then (playAt, acc)
    else
      match ev.data with
      | none => (playAt, acc)
      | some bytes =>
        let r := bytesToI16 bytes leftover
        if playAt.isNone && !r.1.isEmpty then
          streamLoop jobEpoch rest r.2 (some idx) (idx + 1) (acc ++ [r.1])
        else if !r.1.isEmpty then
          streamLoop jobEpoch rest r.2 playAt (idx + 1) (acc ++ [r.1])
        else
          streamLoop jobEpoch rest r.2 playAt (idx + 1) acc

/-- One `fetcher_task` loop iteration on a job with epoch `jobEpoch`:
`atDequeue` is the engine epoch observed right after dequeue, `outcome` the
HTTP outcome. On the two error outcomes and on the two stale-epoch
checkpoints the job is dropped by `continue`, which skips the final
`queue_length` decrement. -/
def runFetchJob (jobEpoch atDequeue : Nat) (outcome : FetchOutcome) : FetchResult :=
  if jobEpoch ≠ atDequeue then ⟨none, [], false, false⟩
  else
    match outcome with
    | .httpError => ⟨none, [], false, false⟩
    | .netError => ⟨none, [], false, false⟩
    | .success afterHeaders chunks =>
      if jobEpoch ≠ afterHeaders then ⟨none, [], false, false⟩
      else
        let r := streamLoop jobEpoch chunks none none 0 []
        ⟨r.1, r.2, r.1.isSome, true⟩

/-! ## Text-processor actor (`tts.rs`) -/

/-- Rust `char::is_alphanumeric` restricted to ASCII bytes. -/
def isAlnum (b : Nat) : Bool :=
  (48 ≤ b && b ≤ 57) || (65 ≤ b && b ≤ 90) || (97 ≤ b && b ≤ 122)

/-- Text-processor commands relevant to the dispatch claims. The engine
epoch is a fixed parameter of the run (the modelled scenarios contain no
`stop`, so the `AtomicU64` never changes). -/
inductive Cmd where
  | speak (text : List Nat)
  | streamChunk (text : List Nat)
  | streamEnd
deriving DecidableEq

/-- Observable state of `text_processor_task`: the streaming buffer and
epoch, the FetchJob texts sent so far (in order), and `queue_length`. -/
structure ProcState where
  buffer : List Nat
  streamEpoch : Option Nat
  jobs : List (List Nat)
  queueLength : Nat
deriving DecidableEq

/-- Initial processor state. -/
def procInit : ProcState := ⟨[], none, [], 0⟩

/-- `dispatch_stream_sentences` from `tts.rs`: with at most one visible
sentence, force-split only when the buffer reached `2 * max_chunk_len`;
otherwise dispatch every sentence but the last and retain the last
(trimmed) sentence as the new buffer. -/
def dispatchStreamSentences (currentEpoch globalEpoch maxLen : Nat)
    (st : ProcState) : ProcState :=
  let sentences := splitSentences st.buffer
  if sentences.length ≤ 1 then
    if maxLen * 2 ≤ st.buffer.length then
      let splitAt := (rfindSpace (st.buffer.take maxLen)).getD maxLen
      let chunk := trim (st.buffer.take splitAt)
      let tail := trimStart (st.buffer.drop splitAt)
      if 2 ≤ chunk.length then
        { st with
            buffer := tail,
            queueLength := st.queueLength + 1,
            jobs := st.jobs ++ [chunk] }
      else { st with buffer := tail }
    else st
  else
    let tailSentence := sentences.getLastD []
    let complete := sentences.dropLast
    let toDispatch :=
      (complete.map (fun s => if s.length ≤ maxLen then [s] else splitText s maxLen)).flatten
    let sent := if globalEpoch = currentEpoch then toDispatch else []
    { st with
        buffer := tailSentence,
        queueLength := st.queueLength + toDispatch.length,
        jobs := st.jobs ++ sent }

/-- One command of `text_processor_task` under a fixed engine epoch. -/
def procStep (globalEpoch maxLen : Nat) (st : ProcState) (cmd : Cmd) : ProcState :=
  match cmd with
  | .speak text =>
    let batched :=
      ((splitSentences text).map
        (fun s => if s.length ≤ maxLen then [s] else splitText s maxLen)).flatten
    { st with
        queueLength := st.queueLength + batched.length,
        jobs := st.jobs ++ batched }
  | .streamChunk chunk =>
    let currentEpoch := st.streamEpoch.getD globalEpoch
    if globalEpoch ≠ currentEpoch then
      { st with buffer := [], streamEpoch := none }
    else
      dispatchStreamSentences currentEpoch globalEpoch maxLen
        { st with streamEpoch := some currentEpoch, buffer := st.buffer ++ chunk }
  | .streamEnd =>
    match st.streamEpoch with
    | some currentEpoch =>
      if globalEpoch = currentEpoch then
        let remaining := trim st.buffer
        if 2 ≤ remaining.length && remaining.any isAlnum then
          let chunks :=
            if remaining.length ≤ maxLen then [remaining]
            else splitText remaining maxLen
          let sent := if globalEpoch = currentEpoch then chunks else []
          { buffer := [],
            streamEpoch := none,
            jobs := st.jobs ++ sent,
            queueLength := st.queueLength + chunks.length }
        else { st with buffer := [], streamEpoch := none }
      else { st with buffer := [], streamEpoch := none }
    | none => { st with buffer := [] }

/-- Run the text processor over a command sequence. -/
def procRun (globalEpoch maxLen : Nat) (cmds : List Cmd) : ProcState :=
  cmds.foldl (procStep globalEpoch maxLen) procInit

/-- The single-sentence text on which the tracker and the dispatcher
disagree: 66 `a`s, a space, 133 `b`s, a space, 67 `c`s (268 bytes). -/
def c3Text : List Nat :=
  List.replicate 66 97 ++ 32 :: (List.replicate 133 98 ++ 32 :: List.replicate 67 99)

/-- A well-formed output fragment of `split_sentences`: non-empty and
invariant under trimming. -/
def fragOk (c : List Nat) : Prop := ¬c.isEmpty = true ∧ trim c = c

/-- No two adjacent whitespace bytes. -/
def noWsRunB : List Nat → Bool
  | [] => true
  | [_] => true
  | a :: b :: rest => !(charWs a && charWs b) && noWsRunB (b :: rest)

/-- Whether some line of `s` (split at newlines) is bounded by `|` bytes on
both ends (a table line). -/
def hasTableLineB (s : List Nat) : Bool :=
  (s.splitOn 10).any (fun l => 2 ≤ l.length && l.headD 0 = 124 && l.getLastD 0 = 124)

/-! ## Theorems -/

/-- C10: for every text whose byte length is at most `max_len`,
`split_text(text, max_len)` returns a one-element list containing the text
unchanged — including when the text is empty or a single byte, in which
case the returned element is shorter than 2 bytes. -/
theorem C10_splitText_short_is_identity (text : List Nat) (maxLen : Nat)
    (h : text.length ≤ maxLen) : splitText text maxLen = [text] := by
  simp [splitText, h]

/-- Witness for C10 at the empty text: the hypothesis holds and the single
returned element has length 0 < 2. -/
theorem C10_witness :
    ([] : List Nat).length ≤ 200 ∧ splitText [] 200 = [[]] :=
  ⟨by decide, C10_splitText_short_is_identity [] 200 (by decide)⟩

/-- C1 (code evaluation at the failing input): a fetched job whose POST
returns a non-2xx response or a network error is dropped by `continue`,
which skips the `queue_length` decrement, while a job that reaches the
streaming phase does decrement — contradicting the claim that the
decrement also happens for dropped jobs. -/
theorem C1_error_drop_skips_decrement :
    (runFetchJob 0 0 FetchOutcome.httpError).decremented = false ∧
    (runFetchJob 0 0 FetchOutcome.netError).decremented = false ∧
    (runFetchJob 0 0 (FetchOutcome.success 0 [])).decremented = true := by
  decide

/-- C3 (code evaluation at the failing input): `split_text` cuts `c3Text`
into chunks of 66, 133 and 67 bytes; the Speak path dispatches all three
as separate FetchJobs, but the tracker's greedy merge simulation combines
the first two (66 + 1 + 133 = 200 ≤ 200), so `chunk_offsets[0] = 2 ≠ 3`. -/
theorem C3_tracker_disagrees_with_dispatch :
    trackerChunkOffsets c3Text 0 200 = [2] ∧ (speakJobs c3Text 200).length = 3 := by
  decide

/-- C4 (code evaluation at the failing input): the streamed conversation
"Hi ", "there. How ", "are you?", end dispatches two jobs, but the second
is "Howare you?" — the trailing space of the retained tail "How " was lost
because `dispatch_stream_sentences` stores the trimmed last sentence. -/
theorem C4_stream_scenario_second_job_loses_space :
    (procRun 0 200 [Cmd.streamChunk (strBytes ("Hi ")),
        Cmd.streamChunk (strBytes ("there. How ")),
        Cmd.streamChunk (strBytes ("are you?")), Cmd.streamEnd]).jobs
      = [strBytes ("Hi there."), strBytes ("Howare you?")] ∧
    strBytes ("Howare you?") ≠ strBytes ("How are you?") := by
  decide

/-- Draining a channel that holds data batches and then `Done` consumes
everything, appends all samples, and reports the `Done`. -/
theorem drainAll_data_done (bs : List (List Int)) (acc : List Int) :
    drainAll (bs.map PcmChunk.data ++ [PcmChunk.done]) acc =
      ([], acc ++ bs.flatten, true) := by
  induction bs generalizing acc with
  | nil => simp [drainAll]
  | cons b rest ih => simp [drainAll, ih (acc ++ b)]

/-- Once the source is finished with an empty channel, iteration yields
exactly the buffered samples. -/
theorem collectN_finished (buf : List Int) (alive : Bool) (n : Nat)
    (h : buf.length < n) :
    collectN n ⟨[], alive, buf, true⟩ = buf := by
  induction buf generalizing n with
  | nil =>
    match n, h with
    | m + 1, _ => simp [collectN, ssNext]
  | cons x rest ih =>
    match n, h with
    | m + 1, h =>
      have hr : rest.length < m := by simpa using h
      simp [collectN, ssNext, ih m hr]

/-- C9: for a StreamingSource whose channel already contains a sequence of
Data batches followed by Done when iteration begins, repeatedly calling
`next` yields exactly the concatenation of the batches' samples in arrival
order and then end-of-sequence, with no zero keep-alive samples inserted. -/
theorem C9_streaming_source_yields_concat (bs : List (List Int)) (alive : Bool)
    (n : Nat) (h : bs.flatten.length < n) :
    collectN n ⟨bs.map PcmChunk.data ++ [PcmChunk.done], alive, [], false⟩ =
      bs.flatten := by
  match n, h with
  | m + 1, h =>
    have hfill :
        fillBuffer ⟨bs.map PcmChunk.data ++ [PcmChunk.done], alive, [], false⟩ =
          ⟨[], alive, bs.flatten, true⟩ := by
      simp [fillBuffer, drainAll_data_done]
    match hj : bs.flatten with
    | [] => simp [collectN, ssNext, hfill, hj]
    | x :: rest =>
      have hr : rest.length < m := by
        have := h
        rw [hj] at this
        simpa using this
      simp [collectN, ssNext, hfill, hj, collectN_finished rest alive m hr]

/-- Witness for C9 at two concrete batches. -/
theorem C9_witness :
    ([[100, 200, 300], [400, 500]] : List (List Int)).flatten.length < 6 ∧
    collectN 6 ⟨[PcmChunk.data [100, 200, 300], PcmChunk.data [400, 500],
        PcmChunk.done], true, [], false⟩ = [100, 200, 300, 400, 500] :=
  ⟨by decide, C9_streaming_source_yields_concat [[100, 200, 300], [400, 500]] true 6 (by decide)⟩

/-- Once `PlayStream` has been sent, the streaming loop's result keeps
that position. -/
theorem streamLoop_some_playAt (e : Nat) (cs : List ChunkEvent) (v : Nat) :
    ∀ (lo : Option Nat) (idx : Nat) (acc : List (List Int)),
      (streamLoop e cs lo (some v) idx acc).1 = some v := by
  induction cs with
  | nil => intro lo idx acc; simp [streamLoop]
  | cons ev rest ih =>
    intro lo idx acc
    by_cases hobs : ev.obs ≠ e
    · simp [streamLoop, hobs]
    · match hd : ev.data with
      | none => simp [streamLoop, hobs, hd]
      | some bytes =>
        by_cases hne : (bytesToI16 bytes lo).1.isEmpty
        · simp [streamLoop, hobs, hd, hne, ih]
        · simp [streamLoop, hobs, hd, hne, ih]

/-- If the streaming loop sends `PlayStream` at position `i`, then every
epoch value it observed at the top of the loop up to and including that
position was the job's epoch. -/
theorem streamLoop_playAt_fresh (e : Nat) (cs : List ChunkEvent) (i : Nat) :
    ∀ (lo : Option Nat) (idx : Nat) (acc : List (List Int)),
      (streamLoop e cs lo none idx acc).1 = some i →
      ∃ k, k < cs.length ∧ idx + k = i ∧
        ∀ (j : Nat) (hj : j < cs.length), j ≤ k → (cs.get ⟨j, hj⟩).obs = e := by
  induction cs with
  | nil => intro lo idx acc h; simp [streamLoop] at h
  | cons ev rest ih =>
    intro lo idx acc h
    by_cases hobs : ev.obs ≠ e
    · simp [streamLoop, hobs] at h
    · have hobs2 : ev.obs = e := by omega
      match hd : ev.data with
      | none =>
        simp [streamLoop, hobs2, hd] at h
      | some bytes =>
        by_cases hne : (bytesToI16 bytes lo).1.isEmpty
        · simp [streamLoop, hobs2, hd, hne] at h
          obtain ⟨k, hklen, hkidx, hkobs⟩ := ih _ _ _ h
          refine ⟨k + 1, by simpa using Nat.succ_lt_succ hklen, by omega, ?_⟩
          intro j hj hjle
          match j with
          | 0 => simpa using hobs2
          | j' + 1 =>
            have hj' : j' < rest.length := by simpa using hj
            simpa using hkobs j' hj' (by omega)
        · simp [streamLoop, hobs2, hd, hne, streamLoop_some_playAt] at h
          refine ⟨0, by simp, by omega, ?_⟩
          intro j hj hjle
          have : j = 0 := by omega
          subst this
          simpa using hobs2

/-- C2: after `stop()` bumps the epoch, a job carrying a stale epoch never
produces a `PlayStream`: if a fetcher run sends `PlayStream` at body chunk
`i`, then the epoch observed at dequeue, the epoch observed after response
headers, and every epoch observed at the top of the streaming loop through
chunk `i` all equal the job's epoch — so once any checkpoint observes a
different (bumped) epoch, the job is discarded without audible output. -/
theorem C2_stale_epoch_never_plays (jobEpoch atDequeue : Nat)
    (outcome : FetchOutcome) (i : Nat)
    (h : (runFetchJob jobEpoch atDequeue outcome).playAt = some i) :
    atDequeue = jobEpoch ∧
    ∃ afterHeaders chunks, outcome = FetchOutcome.success afterHeaders chunks ∧
      afterHeaders = jobEpoch ∧
      ∀ (j : Nat) (hj : j < chunks.length), j ≤ i →
        (chunks.get ⟨j, hj⟩).obs = jobEpoch := by
  by_cases hdq : jobEpoch ≠ atDequeue
  · simp [runFetchJob, hdq] at h
  · have hdq2 : atDequeue = jobEpoch := by omega
    refine ⟨hdq2, ?_⟩
    match outcome with
    | FetchOutcome.httpError => simp [runFetchJob, hdq] at h
    | FetchOutcome.netError => simp [runFetchJob, hdq] at h
    | FetchOutcome.success afterHeaders chunks =>
      by_cases hah : jobEpoch ≠ afterHeaders
      · simp [runFetchJob, hdq, hah] at h
      · have hah2 : afterHeaders = jobEpoch := by omega
        simp [runFetchJob, hdq, hah] at h
        obtain ⟨k, hklen, hkidx, hkobs⟩ :=
          streamLoop_playAt_fresh jobEpoch chunks i none 0 [] (by simpa using h)
        refine ⟨afterHeaders, chunks, rfl, hah2, ?_⟩
        intro j hj hjle
        exact hkobs j hj (by omega)

/-- Witness for C2: a fresh job that streams one non-empty chunk sends
`PlayStream` at chunk 0, and the theorem applies. -/
theorem C2_witness :
    (runFetchJob 0 0 (FetchOutcome.success 0 [⟨0, some [1, 0]⟩])).playAt = some 0 ∧
    (0 = 0 ∧ ∃ afterHeaders chunks,
      FetchOutcome.success 0 [⟨0, some [1, 0]⟩] =
        FetchOutcome.success afterHeaders chunks ∧
      afterHeaders = 0 ∧
      ∀ (j : Nat) (hj : j < chunks.length), j ≤ 0 →
        (chunks.get ⟨j, hj⟩).obs = 0) :=
  ⟨by decide, C2_stale_epoch_never_plays 0 0 (FetchOutcome.success 0 [⟨0, some [1, 0]⟩]) 0 (by decide)⟩

/-- Parsing any buffer with the canonical 44-byte mono-PCM header shape
produced by `write_wav` (size fields and byte-rate arbitrary) returns
channels 1, bits 16, data offset 44 and the little-endian sample rate. -/
theorem parse44 (w x y z e f g h w2 x2 y2 z2 r0 r1 r2 r3 : Nat) (rest : List Nat) :
    parseWavHeader (82 :: 73 :: 70 :: 70 :: w :: x :: y :: z :: 87 :: 65 :: 86 :: 69 ::
      102 :: 109 :: 116 :: 32 :: 16 :: 0 :: 0 :: 0 :: 1 :: 0 :: 1 :: 0 ::
      r0 :: r1 :: r2 :: r3 :: e :: f :: g :: h :: 2 :: 0 :: 16 :: 0 ::
      100 :: 97 :: 116 :: 97 :: w2 :: x2 :: y2 :: z2 :: rest)
    = some ⟨1, r0 + 256 * r1 + 65536 * r2 + 16777216 * r3, 16, 44⟩ := by
  set buf := (82 :: 73 :: 70 :: 70 :: w :: x :: y :: z :: 87 :: 65 :: 86 :: 69 ::
      102 :: 109 :: 116 :: 32 :: 16 :: 0 :: 0 :: 0 :: 1 :: 0 :: 1 :: 0 ::
      r0 :: r1 :: r2 :: r3 :: e :: f :: g :: h :: 2 :: 0 :: 16 :: 0 ::
      100 :: 97 :: 116 :: 97 :: w2 :: x2 :: y2 :: z2 :: rest) with hbuf
  have hlen : buf.length = rest.length + 44 := by simp [hbuf]
  have hfuel : buf.length + 1 = rest.length + 43 + 1 + 1 := by omega
  rw [parseWavHeader, hfuel, if_pos (by omega : 12 ≤ buf.length)]
  rw [if_pos (by rw [hbuf]; rfl : buf.take 4 = [82, 73, 70, 70])]
  rw [if_pos (by rw [hbuf]; rfl : (buf.drop 8).take 4 = [87, 65, 86, 69])]
  have c1 : 12 + 8 ≤ buf.length := by omega
  have c2 : 12 + 24 ≤ buf.length := by omega
  have d1 : (buf.drop 12).take 4 = [102, 109, 116, 32] := by rw [hbuf]; rfl
  have e1 : readU16 buf (12 + 8) = 1 := by rw [hbuf]; rfl
  have e2 : readU32 buf (12 + 4) = 16 := by rw [hbuf]; rfl
  have e3 : readU16 buf (12 + 10) = 1 := by rw [hbuf]; rfl
  have e4 : readU32 buf (12 + 12) = r0 + 256 * r1 + 65536 * r2 + 16777216 * r3 := by
    rw [hbuf]; rfl
  have e5 : readU16 buf (12 + 22) = 16 := by rw [hbuf]; rfl
  rw [parseChunks]
  rw [if_pos c1, if_pos d1, if_pos c2, if_pos e1, e2, e3, e4, e5]
  rw [if_neg (by decide : ¬(16 = 4294967295))]
  have hpos : 12 + 8 + 16 = 36 := by norm_num
  rw [hpos]
  have c3 : 36 + 8 ≤ buf.length := by omega
  have d2 : (buf.drop 36).take 4 = [100, 97, 116, 97] := by rw [hbuf]; rfl
  have d2f : ¬((buf.drop 36).take 4 = [102, 109, 116, 32]) := by rw [d2]; decide
  rw [parseChunks]
  rw [if_pos c3, if_neg d2f, if_pos d2]
  intro ch sr bp hch hsr hbp
  exact Option.noConfusion hch

/-- C8: for every sample list and every `u32` sample rate, parsing the
buffer produced by `write_wav` succeeds and returns channels 1, the same
sample rate, 16 bits per sample, and data offset 44. -/
theorem C8_parse_encode_roundtrip (samples : List Int) (rate : Nat)
    (hrate : rate < 4294967296) :
    parseWavHeader (writeWav samples rate) = some ⟨1, rate, 16, 44⟩ := by
  have h2 := parse44 ((36 + 2 * samples.length % 4294967296) % 4294967296 % 256)
      ((36 + 2 * samples.length % 4294967296) % 4294967296 / 256 % 256)
      ((36 + 2 * samples.length % 4294967296) % 4294967296 / 65536 % 256)
      ((36 + 2 * samples.length % 4294967296) % 4294967296 / 16777216 % 256)
      (rate * 2 % 4294967296 % 256) (rate * 2 % 4294967296 / 256 % 256)
      (rate * 2 % 4294967296 / 65536 % 256) (rate * 2 % 4294967296 / 16777216 % 256)
      (2 * samples.length % 4294967296 % 256) (2 * samples.length % 4294967296 / 256 % 256)
      (2 * samples.length % 4294967296 / 65536 % 256)
      (2 * samples.length % 4294967296 / 16777216 % 256)
      (rate % 256) (rate / 256 % 256) (rate / 65536 % 256) (rate / 16777216 % 256)
      ((samples.map i16le).flatten)
  have hr : rate % 256 + 256 * (rate / 256 % 256) + 65536 * (rate / 65536 % 256) +
      16777216 * (rate / 16777216 % 256) = rate := by omega
  rw [hr] at h2
  exact h2

/-- Witness for C8 at 50 zero samples and rate 24000 (spec scenario 7). -/
theorem C8_witness :
    24000 < 4294967296 ∧
    parseWavHeader (writeWav (List.replicate 50 0) 24000) =
      some ⟨1, 24000, 16, 44⟩ :=
  ⟨by decide, C8_parse_encode_roundtrip (List.replicate 50 0) 24000 (by decide)⟩

/-- The head of a `dropWhile` result does not satisfy the predicate. -/
theorem dropWhile_head_shape (p : Nat → Bool) (l : List Nat) :
    l.dropWhile p = [] ∨ ∃ h t, l.dropWhile p = h :: t ∧ p h = false := by
  match hd : l.dropWhile p with
  | [] => exact Or.inl rfl
  | a :: t =>
    refine Or.inr ⟨a, t, rfl, ?_⟩
    have hh := List.head?_dropWhile_not p l
    rw [hd] at hh
    simpa using hh

/-- `trimEnd` keeps the head byte when its result is non-empty. -/
theorem trimEnd_cons_shape (a : Nat) (l : List Nat) :
    trimEnd (a :: l) = [] ∨ ∃ t, trimEnd (a :: l) = a :: t := by
  rw [trimEnd]
  match trimEnd l with
  | [] =>
    by_cases hw : charWs a = true
    · simp [hw]
    · simp [hw]
  | r :: rs => exact Or.inr ⟨r :: rs, rfl⟩

/-- `trimEnd` is idempotent. -/
theorem trimEnd_idem (l : List Nat) : trimEnd (trimEnd l) = trimEnd l := by
  induction l with
  | nil => simp [trimEnd]
  | cons a rest ih =>
    rw [trimEnd]
    match hr : trimEnd rest with
    | [] =>
      by_cases hw : charWs a = true
      · simp [hw, trimEnd]
      · simp [hw, trimEnd]
    | r :: rs =>
      rw [hr] at ih
      simp only []
      rw [trimEnd, ih]

/-- `trim` is idempotent. -/
theorem trim_trim (x : List Nat) : trim (trim x) = trim x := by
  unfold trim
  rcases dropWhile_head_shape charWs x with hnil | ⟨h, t, hht, hw⟩
  · unfold trimStart
    rw [hnil]
    simp [trimEnd, trimStart, List.dropWhile]
  · unfold trimStart
    rw [hht]
    rcases trimEnd_cons_shape h t with hte | ⟨t2, hte⟩
    · rw [hte]
      simp [List.dropWhile, trimEnd]
    · rw [hte]
      rw [show List.dropWhile charWs (h :: t2) = h :: t2 from by
        simp [List.dropWhile_cons, hw]]
      rw [← hte, trimEnd_idem]

/-- The convoluted split condition of the source equals the simplified one:
the second disjunct (punctuation followed by a space) is subsumed by the
first (a space is ASCII whitespace other than newline). -/
theorem sentCond_eq (b b1 : Nat) : sentSplitCond b b1 = sentSplitCondSpec b b1 := by
  by_cases h32 : b1 = 32
  · subst h32
    simp [sentSplitCond, sentSplitCondSpec, asciiWs]
  · simp [sentSplitCond, sentSplitCondSpec, h32, Bool.and_assoc]

/-- The two sentence-splitting scanners agree on every state. -/
theorem splitSentencesLoop_eq_spec : ∀ (fuel : Nat) (pending remaining : List Nat)
    (acc : List (List Nat)),
    splitSentencesLoop fuel pending remaining acc =
      splitSentencesSpecLoop fuel pending remaining acc := by
  intro fuel
  induction fuel with
  | zero =>
    intro p r a
    simp [splitSentencesLoop, splitSentencesSpecLoop]
  | succ f ih =>
    intro p r a
    match r with
    | [] => simp [splitSentencesLoop, splitSentencesSpecLoop]
    | b :: rest =>
      simp only [splitSentencesLoop, splitSentencesSpecLoop, sentCond_eq, ih]

/-- `split_sentences` implements the amended description exactly. -/
theorem splitSentences_eq_spec (s : List Nat) :
    splitSentences s = splitSentencesSpec s :=
  splitSentencesLoop_eq_spec (s.length + 1) [] s []

/-- Pushing a trimmed, non-empty fragment preserves fragment well-formedness. -/
theorem pushFrag_ok (pending : List Nat) (acc : List (List Nat))
    (ha : ∀ c ∈ acc, fragOk c) :
    ∀ c ∈ acc ++ (if (trim pending).isEmpty then [] else [trim pending]), fragOk c := by
  intro c hc
  rcases List.mem_append.mp hc with h | h
  · exact ha c h
  · by_cases he : (trim pending).isEmpty = true
    · simp [he] at h
    · simp only [he, if_neg, ite_false, List.mem_singleton] at h
      have h2 : c = trim pending := by simpa using h
      subst h2
      exact ⟨he, trim_trim pending⟩

/-- Every fragment produced by the sentence-splitting loop is trimmed and
non-empty. -/
theorem splitSentencesLoop_frags : ∀ (fuel : Nat) (pending remaining : List Nat)
    (acc : List (List Nat)), (∀ c ∈ acc, fragOk c) →
    ∀ c ∈ splitSentencesLoop fuel pending remaining acc, fragOk c := by
  intro fuel
  induction fuel with
  | zero =>
    intro p r a ha
    simpa [splitSentencesLoop] using pushFrag_ok p a ha
  | succ f ih =>
    intro p r a ha
    match r with
    | [] => simpa [splitSentencesLoop] using pushFrag_ok p a ha
    | b :: rest =>
      rw [splitSentencesLoop]
      by_cases h1 : (decide (b = 10) && decide (rest.headD 0 = 10) && !rest.isEmpty) = true
      · simp only [h1, if_pos]
        exact ih _ _ _ (pushFrag_ok p a ha)
      · simp only [h1, if_neg, Bool.false_eq_true, not_false_eq_true, ite_false]
        by_cases h2 : (!rest.isEmpty && sentSplitCond b (rest.headD 0)) = true
        · simp only [h2, if_pos]
          exact ih _ _ _ (pushFrag_ok (p ++ [b]) a ha)
        · simp only [h2, if_neg, Bool.false_eq_true, not_false_eq_true, ite_false]
          exact ih _ _ _ ha

/-- C5 counterexample: the claim as stated requires a split at a period
followed by a single newline, so it predicts `["Hi.", "Bye"]` on
`"Hi.\nBye"`; the code explicitly excludes newline from the whitespace
that triggers a split and returns the input as one fragment. -/
theorem C5_counterexample_newline_no_split :
    splitSentences (strBytes ("Hi.\nBye")) = [strBytes ("Hi.\nBye")] ∧
    splitSentences (strBytes ("Hi.\nBye")) ≠ [strBytes ("Hi."), strBytes ("Bye")] := by
  decide

/-- C5 (amended): `split_sentences` splits at each occurrence of `.`, `!`
or `?` immediately followed by an ASCII whitespace byte other than newline
(`splitSentencesSpec` is that description as a scanner, including the
paragraph-break splits, trimming, and tail retention), and every returned
fragment is trimmed and non-empty. -/
theorem C5_split_behavior_amended (s : List Nat) :
    splitSentences s = splitSentencesSpec s ∧
    ∀ c ∈ splitSentences s, ¬c.isEmpty = true ∧ trim c = c := by
  refine ⟨splitSentences_eq_spec s, ?_⟩
  exact splitSentencesLoop_frags (s.length + 1) [] s [] (by simp)

/-- Witness for C5 at a concrete text and fragment. -/
theorem C5_witness :
    splitSentences (strBytes ("Hello. World")) =
      splitSentencesSpec (strBytes ("Hello. World")) ∧
    (¬(strBytes ("Hello.")).isEmpty = true ∧
      trim (strBytes ("Hello.")) = strBytes ("Hello.")) :=
  ⟨(C5_split_behavior_amended (strBytes ("Hello. World"))).1,
    (C5_split_behavior_amended (strBytes ("Hello. World"))).2
      (strBytes ("Hello.")) (by decide)⟩

/-- A `. ` match position leaves room for the two pattern bytes. -/
theorem rfindDotSpace_bound (s : List Nat) (pos : Nat)
    (h : rfindDotSpace s = some pos) : pos + 2 ≤ s.length := by
  induction s generalizing pos with
  | nil => simp [rfindDotSpace] at h
  | cons a rest ih =>
    rw [rfindDotSpace] at h
    match hr : rfindDotSpace rest with
    | some j =>
      rw [hr] at h
      simp only [Option.some.injEq] at h
      subst h
      have := ih j hr
      simp only [List.length_cons]
      omega
    | none =>
      rw [hr] at h
      by_cases hc : (decide (a = 46) && decide (rest.headD 0 = 32) && !rest.isEmpty) = true
      · rw [if_pos hc] at h
        simp only [Option.some.injEq] at h
        subst h
        simp only [Bool.and_eq_true, Bool.not_eq_true, decide_eq_true_eq] at hc
        have hne : rest ≠ [] := by
          intro he
          rw [he] at hc
          simp at hc
        have : 1 ≤ rest.length := by
          cases rest with
          | nil => exact absurd rfl hne
          | cons x xs => simp
        simp only [List.length_cons]
        omega
      · rw [if_neg hc] at h
        exact absurd h (by simp)

/-- A found space lies inside the list. -/
theorem rfindSpace_bound (s : List Nat) (pos : Nat)
    (h : rfindSpace s = some pos) : pos < s.length := by
  induction s generalizing pos with
  | nil => simp [rfindSpace] at h
  | cons a rest ih =>
    rw [rfindSpace] at h
    match hr : rfindSpace rest with
    | some j =>
      rw [hr] at h
      simp only [Option.some.injEq] at h
      subst h
      have := ih j hr
      simp only [List.length_cons]
      omega
    | none =>
      rw [hr] at h
      by_cases ha : a = 32
      · simp [ha] at h
        subst h
        simp
      · simp [ha] at h

/-- `trimEnd` never lengthens a list. -/
theorem trimEnd_length_le (l : List Nat) : (trimEnd l).length ≤ l.length := by
  induction l with
  | nil => simp [trimEnd]
  | cons a rest ih =>
    rw [trimEnd]
    match hr : trimEnd rest with
    | [] =>
      by_cases hw : charWs a = true
      · simp [hw]
      · simp [hw]
    | r :: rs =>
      rw [hr] at ih
      simp only [List.length_cons] at ih ⊢
      omega



/-- `word_boundary_or_hard` never cuts past `max_len`. -/
theorem wordBoundaryOrHard_le (window : List Nat) (maxLen : Nat)
    (hw : window.length ≤ maxLen) : wordBoundaryOrHard window maxLen ≤ maxLen := by
  rw [wordBoundaryOrHard]
  match hr : rfindSpace window with
  | some pos =>
    have := rfindSpace_bound window pos hr
    by_cases hp : maxLen / 3 ≤ pos
    · simp only [hp, if_pos]
      omega
    · simp [hp]
  | none => simp

/-- The chosen split position never exceeds `max_len`. -/
theorem splitTextCut_le (window : List Nat) (maxLen : Nat)
    (hw : window.length ≤ maxLen) : splitTextCut window maxLen ≤ maxLen := by
  rw [splitTextCut]
  match hr : rfindDotSpace window with
  | some pos =>
    have := rfindDotSpace_bound window pos hr
    by_cases hp : maxLen / 2 ≤ pos
    · simp only [hp, if_pos]
      omega
    · simp only [hp, if_neg, ite_false]
      exact wordBoundaryOrHard_le window maxLen hw
  | none => exact wordBoundaryOrHard_le window maxLen hw

/-- Each chunk cut by the loop is at most `max_len` bytes. -/
theorem chunk_short (r : List Nat) (maxLen : Nat) :
    (trimEnd (r.take (splitTextCut (r.take maxLen) maxLen))).length ≤ maxLen := by
  have hwin : (r.take maxLen).length ≤ maxLen := by
    simp [List.length_take]
  have hcut := splitTextCut_le (r.take maxLen) maxLen hwin
  calc (trimEnd (r.take (splitTextCut (r.take maxLen) maxLen))).length
      ≤ (r.take (splitTextCut (r.take maxLen) maxLen)).length := trimEnd_length_le _
    _ ≤ splitTextCut (r.take maxLen) maxLen := by simp [List.length_take]
    _ ≤ maxLen := hcut

/-- Loop invariant: every chunk the `split_text` loop accumulates is
non-empty and at most `max_len` bytes. -/
theorem splitTextLoop_inv (maxLen : Nat) : ∀ (fuel : Nat) (remaining : List Nat)
    (acc : List (List Nat)),
    (∀ c ∈ acc, c.length ≤ maxLen ∧ 1 ≤ c.length) →
    ∀ c ∈ splitTextLoop fuel remaining maxLen acc, c.length ≤ maxLen ∧ 1 ≤ c.length := by
  intro fuel
  induction fuel with
  | zero => intro r acc ha; simpa [splitTextLoop] using ha
  | succ f ih =>
    intro r acc ha
    rw [splitTextLoop]
    by_cases hle : r.length ≤ maxLen
    · rw [if_pos hle]
      intro c hc
      rcases List.mem_append.mp hc with h | h
      · exact ha c h
      · by_cases h2 : 2 ≤ r.length
        · simp only [h2, if_pos, List.mem_singleton] at h
          subst h
          exact ⟨hle, by omega⟩
        · simp [h2] at h
    · rw [if_neg hle]
      apply ih
      intro c hc
      rcases List.mem_append.mp hc with h | h
      · exact ha c h
      · by_cases he :
          (trimEnd (r.take (splitTextCut (r.take maxLen) maxLen))).isEmpty = true
        · simp [he] at h
        · simp only [he, if_neg, ite_false, List.mem_singleton] at h
          have h2 : c = trimEnd (r.take (splitTextCut (r.take maxLen) maxLen)) := by
            simpa using h
          subst h2
          refine ⟨chunk_short r maxLen, ?_⟩
          match hm : trimEnd (r.take (splitTextCut (r.take maxLen) maxLen)) with
          | [] => rw [hm] at he; simp at he
          | x :: xs => simp

/-- C6 (amended): for `m ≥ 20`, every element of `split_text(s, m)` has
byte length at most `m`, and when `s` is longer than `m` (so splitting
actually happens) every element is non-empty; the claimed minimum length
of 2 and the claimed preservation of every word both fail (see the
counterexample), since interior chunks of length 1 are kept and a trailing
fragment shorter than 2 bytes is dropped together with its word. -/
theorem C6_splitText_amended (s : List Nat) (m : Nat) (_hm : 20 ≤ m) :
    ∀ c ∈ splitText s m, c.length ≤ m ∧ (m < s.length → 1 ≤ c.length) := by
  intro c hc
  rw [splitText] at hc
  by_cases hle : s.length ≤ m
  · rw [if_pos hle] at hc
    have h2 : c = s := by simpa using hc
    subst h2
    exact ⟨hle, fun hml => by omega⟩
  · rw [if_neg hle] at hc
    have := splitTextLoop_inv m (s.length + 1) s [] (by simp) c hc
    exact ⟨this.1, fun _ => this.2⟩


/-- C6 counterexample: on `"a" ++ 30 spaces ++ "b"*10` with `m = 20` the
output contains the element `"a"` of length 1 < 2, and on
`"b"*20 ++ " x"` the final word `"x"` (byte 120) is dropped, so the
concatenation does not contain every word of the input. -/
theorem C6_min_length_and_word_loss_counterexample :
    splitText (97 :: (List.replicate 30 32 ++ List.replicate 10 98)) 20 =
      [[97], List.replicate 10 98] ∧
    (([97] : List Nat).length < 2) ∧
    splitText (List.replicate 20 98 ++ [32, 120]) 20 = [List.replicate 20 98] ∧
    (120 ∈ List.replicate 20 98 ++ [32, 120]) ∧
    ¬(120 ∈ ([List.replicate 20 98] : List (List Nat)).flatten) := by
  decide

/-- Witness for C6 at a concrete split input and element. -/
theorem C6_witness :
    20 ≤ 20 ∧
    ([97] ∈ splitText (97 :: (List.replicate 30 32 ++ List.replicate 10 98)) 20) ∧
    (([97] : List Nat).length ≤ 20 ∧
      (20 < (97 :: (List.replicate 30 32 ++ List.replicate 10 98)).length →
        1 ≤ ([97] : List Nat).length)) :=
  ⟨by decide, by decide,
    C6_splitText_amended (97 :: (List.replicate 30 32 ++ List.replicate 10 98)) 20
      (by decide) [97] (by decide)⟩

/-- Bytes of `trimEnd l` come from `l`. -/
theorem mem_trimEnd (l : List Nat) (x : Nat) (h : x ∈ trimEnd l) : x ∈ l := by
  induction l with
  | nil => simp [trimEnd] at h
  | cons a rest ih =>
    rw [trimEnd] at h
    match hr : trimEnd rest with
    | [] =>
      rw [hr] at h
      by_cases hw : charWs a = true
      · simp [hw] at h
      · simp only [hw, if_neg, Bool.false_eq_true, not_false_eq_true, ite_false,
          List.mem_singleton] at h
        simp [h]
    | r :: rs =>
      rw [hr] at h
      rcases List.mem_cons.mp h with h1 | h1
      · simp [h1]
      · have := ih (hr ▸ h1)
        simp [this]

/-- The heading pass removes every `#` byte. -/
theorem headingStepF_no35 : ∀ (fuel : Nat) (s : List Nat),
    ∀ b ∈ headingStepF fuel s, ¬b = 35 := by
  intro fuel
  induction fuel with
  | zero => intro s b hb; simp [headingStepF] at hb
  | succ f ih =>
    intro s b hb
    match s with
    | [] => simp [headingStepF] at hb
    | x :: rest =>
      rw [headingStepF] at hb
      by_cases hx : x = 35
      · rw [if_pos hx] at hb
        exact ih _ b hb
      · rw [if_neg hx] at hb
        rcases List.mem_cons.mp hb with h | h
        · subst h; exact hx
        · exact ih _ b h

/-- Bytes of the link pass output come from its input. -/
theorem linkStepF_mem : ∀ (fuel : Nat) (s : List Nat) (x : Nat),
    x ∈ linkStepF fuel s → x ∈ s := by
  intro fuel
  induction fuel with
  | zero => intro s x hx; simp [linkStepF] at hx
  | succ f ih =>
    intro s x hx
    match s with
    | [] => simp [linkStepF] at hx
    | b :: rest =>
      rw [linkStepF] at hx
      by_cases hb : b = 91
      · rw [if_pos hb] at hx
        simp only [] at hx
        split at hx
        case _ t hd =>
          split at hx
          case _ r hd2 =>
            split at hx
            case _ hle =>
              rcases List.mem_cons.mp hx with h | h
              · simp [h]
              · simp [ih rest x h]
            case _ hle =>
              rcases List.mem_append.mp hx with h | h
              · have : x ∈ rest := (List.takeWhile_sublist _).mem h
                simp [this]
              · have h1 : x ∈ r := ih r x h
                have h2 : x ∈ t.dropWhile (fun c => !(c = 41)) := by
                  rw [hd2]; simp [h1]
                have h3 : x ∈ t := (List.dropWhile_sublist _).mem h2
                have h4 : x ∈ rest.dropWhile (fun c => !(c = 93)) := by
                  rw [hd]; simp [h3]
                have h5 : x ∈ rest := (List.dropWhile_sublist _).mem h4
                simp [h5]
          case _ =>
            rcases List.mem_cons.mp hx with h | h
            · simp [h]
            · simp [ih rest x h]
        case _ =>
          rcases List.mem_cons.mp hx with h | h
          · simp [h]
          · simp [ih rest x h]
      · rw [if_neg hb] at hx
        rcases List.mem_cons.mp hx with h | h
        · simp [h]
        · simp [ih rest x h]



/-- The rest returned by a bullet match is part of the input. -/
theorem bulletMatch_sub (s : List Nat) (r : List Nat) (nl : Bool)
    (h : bulletMatch s = some (r, nl)) : ∀ x ∈ r, x ∈ s := by
  intro x hx
  rw [bulletMatch] at h
  by_cases hc : (((s.dropWhile charWs).headD 0 = 45 || (s.dropWhile charWs).headD 0 = 42) &&
      !(s.dropWhile charWs).isEmpty &&
      charWs ((s.dropWhile charWs).tail.headD 0) && !(s.dropWhile charWs).tail.isEmpty) = true
  · rw [if_pos hc] at h
    simp only [Option.some.injEq, Prod.mk.injEq] at h
    have hr : r = (s.dropWhile charWs).tail.dropWhile charWs := h.1.symm
    subst hr
    have h1 : x ∈ (s.dropWhile charWs).tail := (List.dropWhile_sublist _).mem hx
    have h2 : x ∈ s.dropWhile charWs := (List.tail_sublist _).mem h1
    exact (List.dropWhile_sublist _).mem h2
  · rw [if_neg hc] at h
    exact absurd h (by simp)

/-- The rest returned by a numbered-list match is part of the input. -/
theorem numberedMatch_sub (s : List Nat) (r : List Nat) (nl : Bool)
    (h : numberedMatch s = some (r, nl)) : ∀ x ∈ r, x ∈ s := by
  intro x hx
  rw [numberedMatch] at h
  by_cases hc : (!((s.dropWhile charWs).takeWhile isDigit).isEmpty &&
      ((s.dropWhile charWs).dropWhile isDigit).headD 0 = 46 &&
      !((s.dropWhile charWs).dropWhile isDigit).isEmpty &&
      charWs (((s.dropWhile charWs).dropWhile isDigit).tail.headD 0) &&
      !((s.dropWhile charWs).dropWhile isDigit).tail.isEmpty) = true
  · rw [if_pos hc] at h
    simp only [Option.some.injEq, Prod.mk.injEq] at h
    have hr : r = ((s.dropWhile charWs).dropWhile isDigit).tail.dropWhile charWs := h.1.symm
    subst hr
    have h1 : x ∈ ((s.dropWhile charWs).dropWhile isDigit).tail :=
      (List.dropWhile_sublist _).mem hx
    have h2 : x ∈ (s.dropWhile charWs).dropWhile isDigit := (List.tail_sublist _).mem h1
    have h3 : x ∈ s.dropWhile charWs := (List.dropWhile_sublist _).mem h2
    exact (List.dropWhile_sublist _).mem h3
  · rw [if_neg hc] at h
    exact absurd h (by simp)

/-- Bytes of the bullet pass output come from its input or from the
replacement `". "`. -/
theorem bulletStepF_mem : ∀ (fuel : Nat) (atStart : Bool) (s : List Nat) (x : Nat),
    x ∈ bulletStepF fuel atStart s → x ∈ s ∨ x = 46 ∨ x = 32 := by
  intro fuel
  induction fuel with
  | zero => intro a s x hx; simp [bulletStepF] at hx
  | succ f ih =>
    intro a s x hx
    match s with
    | [] => simp [bulletStepF] at hx
    | b :: rest =>
      rw [bulletStepF] at hx
      match a with
      | false =>
        simp only [Bool.false_eq_true, if_false, ite_false] at hx
        rcases List.mem_cons.mp hx with h | h
        · exact Or.inl (by simp [h])
        · rcases ih _ _ _ h with h2 | h2
          · exact Or.inl (by simp [h2])
          · exact Or.inr h2
      | true =>
        simp only [if_true, ite_true] at hx
        match hbm : bulletMatch (b :: rest) with
        | some (r, nl) =>
          rw [hbm] at hx
          simp only [] at hx
          rcases List.mem_cons.mp hx with h | h
          · exact Or.inr (Or.inl h)
          · rcases List.mem_cons.mp h with h2 | h2
            · exact Or.inr (Or.inr h2)
            · rcases ih _ _ _ h2 with h3 | h3
              · exact Or.inl (bulletMatch_sub _ _ _ hbm x h3)
              · exact Or.inr h3
        | none =>
          rw [hbm] at hx
          simp only [] at hx
          rcases List.mem_cons.mp hx with h | h
          · exact Or.inl (by simp [h])
          · rcases ih _ _ _ h with h2 | h2
            · exact Or.inl (by simp [h2])
            · exact Or.inr h2

/-- Bytes of the numbered-list pass output come from its input or from the
replacement `". "`. -/
theorem numberedStepF_mem : ∀ (fuel : Nat) (atStart : Bool) (s : List Nat) (x : Nat),
    x ∈ numberedStepF fuel atStart s → x ∈ s ∨ x = 46 ∨ x = 32 := by
  intro fuel
  induction fuel with
  | zero => intro a s x hx; simp [numberedStepF] at hx
  | succ f ih =>
    intro a s x hx
    match s with
    | [] => simp [numberedStepF] at hx
    | b :: rest =>
      rw [numberedStepF] at hx
      match a with
      | false =>
        simp only [Bool.false_eq_true, if_false, ite_false] at hx
        rcases List.mem_cons.mp hx with h | h
        · exact Or.inl (by simp [h])
        · rcases ih _ _ _ h with h2 | h2
          · exact Or.inl (by simp [h2])
          · exact Or.inr h2
      | true =>
        simp only [if_true, ite_true] at hx
        match hbm : numberedMatch (b :: rest) with
        | some (r, nl) =>
          rw [hbm] at hx
          simp only [] at hx
          rcases List.mem_cons.mp hx with h | h
          · exact Or.inr (Or.inl h)
          · rcases List.mem_cons.mp h with h2 | h2
            · exact Or.inr (Or.inr h2)
            · rcases ih _ _ _ h2 with h3 | h3
              · exact Or.inl (numberedMatch_sub _ _ _ hbm x h3)
              · exact Or.inr h3
        | none =>
          rw [hbm] at hx
          simp only [] at hx
          rcases List.mem_cons.mp hx with h | h
          · exact Or.inl (by simp [h])
          · rcases ih _ _ _ h with h2 | h2
            · exact Or.inl (by simp [h2])
            · exact Or.inr h2



/-- Bytes of the double-period pass output come from its input or are `.`. -/
theorem doubleDotStepF_mem : ∀ (fuel : Nat) (s : List Nat) (x : Nat),
    x ∈ doubleDotStepF fuel s → x ∈ s ∨ x = 46 := by
  intro fuel
  induction fuel with
  | zero => intro s x hx; simp [doubleDotStepF] at hx
  | succ f ih =>
    intro s x hx
    match s with
    | [] => simp [doubleDotStepF] at hx
    | b :: rest =>
      rw [doubleDotStepF] at hx
      by_cases hb : b = 46
      · rw [if_pos hb] at hx
        by_cases hc : ((rest.dropWhile charWs).headD 0 = 46 &&
            !(rest.dropWhile charWs).isEmpty) = true
        · rw [if_pos hc] at hx
          rcases List.mem_cons.mp hx with h | h
          · exact Or.inr h
          · rcases ih _ _ h with h2 | h2
            · have h3 : x ∈ rest.dropWhile charWs := (List.tail_sublist _).mem h2
              have h4 : x ∈ rest := (List.dropWhile_sublist _).mem h3
              exact Or.inl (by simp [h4])
            · exact Or.inr h2
        · rw [if_neg hc] at hx
          rcases List.mem_cons.mp hx with h | h
          · exact Or.inr h
          · rcases ih _ _ h with h2 | h2
            · exact Or.inl (by simp [h2])
            · exact Or.inr h2
      · rw [if_neg hb] at hx
        rcases List.mem_cons.mp hx with h | h
        · exact Or.inl (by simp [h])
        · rcases ih _ _ h with h2 | h2
          · exact Or.inl (by simp [h2])
          · exact Or.inr h2

/-- Bytes of the whitespace-collapse pass come from its input or are a space. -/
theorem collapseWsF_mem : ∀ (fuel : Nat) (s : List Nat) (x : Nat),
    x ∈ collapseWsF fuel s → x ∈ s ∨ x = 32 := by
  intro fuel
  induction fuel with
  | zero => intro s x hx; simp [collapseWsF] at hx
  | succ f ih =>
    intro s x hx
    match s with
    | [] => simp [collapseWsF] at hx
    | a :: rest =>
      rw [collapseWsF] at hx
      by_cases ha : charWs a = true
      · rw [if_pos ha] at hx
        by_cases he : rest.isEmpty = true
        · rw [if_pos he] at hx
          have h2 : x = a := by simpa using hx
          exact Or.inl (by simp [h2])
        · rw [if_neg he] at hx
          by_cases hb : charWs (rest.headD 0) = true
          · rw [if_pos hb] at hx
            rcases List.mem_cons.mp hx with h | h
            · exact Or.inr h
            · rcases ih _ _ h with h2 | h2
              · have h3 : x ∈ rest := (List.dropWhile_sublist _).mem h2
                exact Or.inl (by simp [h3])
              · exact Or.inr h2
          · rw [if_neg hb] at hx
            rcases List.mem_cons.mp hx with h | h
            · exact Or.inl (by simp [h])
            · rcases ih _ _ h with h2 | h2
              · exact Or.inl (by simp [h2])
              · exact Or.inr h2
      · rw [if_neg ha] at hx
        rcases List.mem_cons.mp hx with h | h
        · exact Or.inl (by simp [h])
        · rcases ih _ _ h with h2 | h2
          · exact Or.inl (by simp [h2])
          · exact Or.inr h2


/-- Bytes of the leading-dot pass come from its input. -/
theorem leadingDotStep_mem (s : List Nat) (x : Nat)
    (hx : x ∈ leadingDotStep s) : x ∈ s := by
  rw [leadingDotStep] at hx
  by_cases hc : (s.headD 0 = 46 && !s.isEmpty) = true
  · rw [if_pos hc] at hx
    have h1 : x ∈ s.tail := (List.dropWhile_sublist _).mem hx
    exact (List.tail_sublist _).mem h1
  · rwa [if_neg hc] at hx

/-- Bytes of `trimStart l` come from `l`. -/
theorem trimStart_mem (s : List Nat) (x : Nat) (hx : x ∈ trimStart s) : x ∈ s :=
  (List.dropWhile_sublist _).mem hx

/-- Bytes of `trim l` come from `l`. -/
theorem trim_mem (s : List Nat) (x : Nat) (hx : x ∈ trim s) : x ∈ s :=
  trimStart_mem s x (mem_trimEnd (trimStart s) x hx)


/-- Unfolding `noWsRunB` one byte at a time (`charWs 0 = false` covers the
empty tail). -/
theorem noWsRunB_cons (a : Nat) (l : List Nat) :
    noWsRunB (a :: l) = (!(charWs a && charWs (l.headD 0)) && noWsRunB l) := by
  match l with
  | [] => simp [noWsRunB, charWs]
  | b :: rest => simp [noWsRunB]

/-- `noWsRunB` restricts to the tail. -/
theorem noWsRunB_tail (a : Nat) (l : List Nat) (h : noWsRunB (a :: l) = true) :
    noWsRunB l = true := by
  rw [noWsRunB_cons] at h
  exact (Bool.and_eq_true_iff.mp h).2

/-- Dropping a prefix preserves the absence of whitespace runs. -/
theorem noWsRunB_dropWhile (p : Nat → Bool) (l : List Nat)
    (h : noWsRunB l = true) : noWsRunB (l.dropWhile p) = true := by
  induction l with
  | nil => simpa using h
  | cons a rest ih =>
    rw [List.dropWhile_cons]
    by_cases hp : p a = true
    · simp only [hp, if_pos, ite_true]
      exact ih (noWsRunB_tail a rest h)
    · simp only [hp, if_neg, Bool.false_eq_true, not_false_eq_true, ite_false]
      exact h

/-- `trimEnd` preserves the absence of whitespace runs. -/
theorem noWsRunB_trimEnd (l : List Nat) (h : noWsRunB l = true) :
    noWsRunB (trimEnd l) = true := by
  induction l with
  | nil => simpa [trimEnd] using h
  | cons a rest ih =>
    rw [trimEnd]
    match hr : trimEnd rest with
    | [] =>
      by_cases hw : charWs a = true
      · simp [hw, noWsRunB]
      · simp [hw, noWsRunB]
    | r :: rs =>
      have hrest : noWsRunB rest = true := noWsRunB_tail a rest h
      have htr : noWsRunB (trimEnd rest) = true := ih hrest
      rw [hr] at htr
      match rest with
      | [] => simp [trimEnd] at hr
      | b :: t =>
        have hshape := trimEnd_cons_shape b t
        rcases hshape with hsh | ⟨t2, hsh⟩
        · rw [hsh] at hr
          exact absurd hr (by simp)
        · rw [hsh] at hr
          have hrb : b = r := (List.cons.injEq _ _ _ _ ▸ hr).1
          subst hrb
          rw [noWsRunB_cons]
          rw [noWsRunB_cons] at h
          rcases Bool.and_eq_true_iff.mp h with ⟨h1, _⟩
          simp only [List.headD_cons] at h1 ⊢
          exact Bool.and_eq_true_iff.mpr ⟨h1, htr⟩

/-- The collapse pass maps the empty list to itself for any fuel. -/
theorem collapseWsF_nil (fuel : Nat) : collapseWsF fuel [] = [] := by
  match fuel with
  | 0 => simp [collapseWsF]
  | f + 1 => simp [collapseWsF]

/-- The collapse pass keeps a non-whitespace head byte. -/
theorem collapseWsF_head_not_ws (fuel : Nat) (h : Nat) (dt : List Nat)
    (hw : charWs h = false) :
    collapseWsF fuel (h :: dt) = [] ∨
      ∃ L, collapseWsF fuel (h :: dt) = h :: L := by
  match fuel with
  | 0 => exact Or.inl (by simp [collapseWsF])
  | f + 1 =>
    rw [collapseWsF]
    rw [if_neg (by simp [hw])]
    exact Or.inr ⟨collapseWsF f dt, rfl⟩

/-- The whitespace-collapse pass leaves no run of two adjacent whitespace
bytes: every maximal run of length at least 2 becomes one space, and the
replacement is never adjacent to another whitespace byte. -/
theorem collapseWsF_noRun : ∀ (fuel : Nat) (s : List Nat),
    noWsRunB (collapseWsF fuel s) = true := by
  intro fuel
  induction fuel with
  | zero => intro s; simp [collapseWsF, noWsRunB]
  | succ f ih =>
    intro s
    match s with
    | [] => simp [collapseWsF, noWsRunB]
    | a :: rest =>
      rw [collapseWsF]
      by_cases ha : charWs a = true
      · rw [if_pos ha]
        by_cases he : rest.isEmpty = true
        · rw [if_pos he]
          simp [noWsRunB]
        · rw [if_neg he]
          by_cases hb : charWs (rest.headD 0) = true
          · rw [if_pos hb]
            rcases dropWhile_head_shape charWs rest with hd | ⟨h, t, hd, hwh⟩
            · rw [hd, collapseWsF_nil]
              simp [noWsRunB]
            · rw [hd]
              rcases collapseWsF_head_not_ws f h t hwh with hc | ⟨L, hc⟩
              · rw [hc]
                simp [noWsRunB]
              · rw [hc, noWsRunB_cons]
                have hih := ih (h :: t)
                rw [hc] at hih
                simp only [List.headD_cons, hwh]
                simpa using hih
          · rw [if_neg hb]
            match rest, he with
            | rb :: rt, _ =>
              simp only [List.headD_cons] at hb
              rcases collapseWsF_head_not_ws f rb rt (by simpa using hb) with hc | ⟨L, hc⟩
              · rw [hc]
                simp [noWsRunB]
              · rw [hc, noWsRunB_cons]
                have hih := ih (rb :: rt)
                rw [hc] at hih
                simp only [List.headD_cons]
                have hbf : charWs rb = false := by simpa using hb
                rw [hbf]
                simpa using hih
      · rw [if_neg ha]
        rw [noWsRunB_cons]
        have hih := ih rest
        have haf : charWs a = false := by simpa using ha
        rw [haf]
        simp only [Bool.false_and, Bool.not_false, Bool.true_and]
        match hrest : rest with
        | [] => rw [collapseWsF_nil]; simp [noWsRunB]
        | rb :: rt =>
          by_cases hwb : charWs rb = true
          · -- head of collapseWsF f (rb :: rt) may be 32 or rb; but charWs a is false,
            -- so the pair check already passed; only noWsRunB of the rest matters
            simpa using hih
          · simpa using hih


/-- The heading pass removes every `#` byte (wrapper form). -/
theorem headingStep_no35 (s : List Nat) : ∀ b ∈ headingStep s, ¬b = 35 :=
  headingStepF_no35 (s.length + 1) s

/-- No `#` byte survives the full cleaning pipeline: the heading pass
removes all of them and every later pass only emits input bytes, `.`, or
spaces. -/
theorem cleanTextForTts_no35 (s : List Nat) :
    ∀ b ∈ cleanTextForTts s, ¬b = 35 := by
  intro b hb
  rw [cleanTextForTts] at hb
  have h1 := trim_mem _ b hb
  rcases collapseWsF_mem _ _ b h1 with h2 | h2
  · rcases doubleDotStepF_mem _ _ b h2 with h3 | h3
    · have h4 := leadingDotStep_mem _ b h3
      rcases numberedStepF_mem _ _ _ b h4 with h5 | h5
      · rcases bulletStepF_mem _ _ _ b h5 with h6 | h6
        · have h7 := linkStepF_mem _ _ b h6
          exact headingStep_no35 _ b h7
        · omega
      · omega
    · omega
  · omega

/-- The cleaned text has no run of two or more whitespace bytes: the
whitespace-collapse pass guarantees it and the final trim preserves it. -/
theorem cleanTextForTts_noWsRun (s : List Nat) :
    noWsRunB (cleanTextForTts s) = true := by
  rw [cleanTextForTts]
  apply noWsRunB_trimEnd
  apply noWsRunB_dropWhile
  exact collapseWsF_noRun _ _

/-- C7 counterexample: an unpaired backtick, an unpaired asterisk, and a
two-byte `||` line all survive `clean_text_for_tts` unchanged, violating
the claim's no-backtick, no-asterisk and no-table-line conjuncts. -/
theorem C7_surviving_markup_counterexample :
    96 ∈ cleanTextForTts [96] ∧ 42 ∈ cleanTextForTts [42] ∧
    hasTableLineB (cleanTextForTts [124, 124]) = true := by
  decide

/-- C7 (amended): for every input, the output of `clean_text_for_tts`
contains no `#` byte and no run of two or more consecutive whitespace
bytes; an unpaired backtick, an unpaired `*`, and a `||` line can survive
(see the counterexample). -/
theorem C7_clean_no_hash_no_ws_run (s : List Nat) :
    (∀ b ∈ cleanTextForTts s, ¬b = 35) ∧ noWsRunB (cleanTextForTts s) = true :=
  ⟨cleanTextForTts_no35 s, cleanTextForTts_noWsRun s⟩

/-- Witness for C7 at a concrete markdown text and output byte. -/
theorem C7_witness :
    ¬(72 = 35) ∧ noWsRunB (cleanTextForTts (strBytes ("# Hi  there"))) = true :=
  ⟨(C7_clean_no_hash_no_ws_run (strBytes ("# Hi  there"))).1 72 (by decide),
    (C7_clean_no_hash_no_ws_run (strBytes ("# Hi  there"))).2⟩

end Nayru
